import Mathlib

/-!
Verification of the date-recurrence core of the `simple_chores` integration
(`custom_components/simple_chores/coordinator.py`).

The Python code works on `datetime.date` values, `calendar.monthrange`,
`timedelta` day/week offsets and `dateutil.relativedelta` month/year offsets.
We embed this calendar arithmetic shallowly:

* `Date` is a record of year/month/day naturals; `Date.Valid` is the range
  invariant `datetime.date` enforces at construction.
* `Date.toOrdinal` models CPython's `date.toordinal` (`_ymd2ord`):
  days-before-year via the Gregorian leap count plus days-before-month plus
  the day.  `pyWeekday` is `date.weekday()` (Monday=0), derived from the
  ordinal exactly as CPython does.
* `timedelta(days=k)` addition/subtraction is modelled by iterating a
  single-day successor/predecessor (`addDays`/`subDays`), and
  `relativedelta(months=k)` / `relativedelta(years=k)` by `addMonths` /
  `addYears`, which clamp the day to the target month's length exactly as
  `dateutil` does.
* Python `date` comparison is tuple comparison on (year, month, day);
  `Date.lt` is that lexicographic order.
-/

namespace SimpleChores

/-- Gregorian leap-year test (Python `calendar.isleap`). -/
def isLeap (y : Nat) : Bool :=
  (y % 4 == 0 && y % 100 != 0) || (y % 400 == 0)

/-- Number of days in a month, `calendar.monthrange(y, m)[1]`. -/
def daysInMonth (y m : Nat) : Nat :=
  if m = 2 then (if isLeap y then 29 else 28)
  else if m = 4 ∨ m = 6 ∨ m = 9 ∨ m = 11 then 30
  else 31

/-- A calendar date, as the (year, month, day) triple of `datetime.date`. -/
structure Date where
  year : Nat
  month : Nat
  day : Nat
deriving DecidableEq, Repr

/-- The range invariant `datetime.date` enforces at construction. -/
def Date.Valid (d : Date) : Prop :=
  1 ≤ d.year ∧ 1 ≤ d.month ∧ d.month ≤ 12 ∧ 1 ≤ d.day ∧
    d.day ≤ daysInMonth d.year d.month

instance (d : Date) : Decidable d.Valid := by
  unfold Date.Valid; infer_instance

/-- Days before January 1 of year `y` (CPython `_days_before_year`). -/
def daysBeforeYear (y : Nat) : Nat :=
  (y - 1) * 365 + (y - 1) / 4 - (y - 1) / 100 + (y - 1) / 400

/-- Days in year `y` before the first of month `m`
(CPython `_days_before_month`, as a recurrence instead of a table). -/
def daysBeforeMonth (y : Nat) : Nat → Nat
  | 0 => 0
  | 1 => 0
  | m + 2 => daysBeforeMonth y (m + 1) + daysInMonth y (m + 1)

/-- CPython `date.toordinal` (`_ymd2ord`): day 1 is 0001-01-01. -/
def Date.toOrdinal (d : Date) : Nat :=
  daysBeforeYear d.year + daysBeforeMonth d.year d.month + d.day

/-- Python `date.weekday()`: Monday=0 .. Sunday=6. -/
def pyWeekday (d : Date) : Nat := (d.toOrdinal + 6) % 7

/-- The integration's own weekday convention, Sunday=0 .. Saturday=6,
obtained in the source as `(for_date.weekday() + 1) % 7`. -/
def sundayDow (d : Date) : Nat := (pyWeekday d + 1) % 7

/-- Python `date` comparison: lexicographic on (year, month, day). -/
def Date.lt (a b : Date) : Prop :=
  a.year < b.year ∨
    (a.year = b.year ∧
      (a.month < b.month ∨ (a.month = b.month ∧ a.day < b.day)))

instance : DecidableRel Date.lt := fun a b => by
  unfold Date.lt; infer_instance

/-- Python `date` non-strict comparison. -/
def Date.le (a b : Date) : Prop := a.lt b ∨ a = b

/-- Successor day (`d + timedelta(days=1)`). -/
def nextDay (d : Date) : Date :=
  if d.day < daysInMonth d.year d.month then ⟨d.year, d.month, d.day + 1⟩
  else if d.month < 12 then ⟨d.year, d.month + 1, 1⟩
  else ⟨d.year + 1, 1, 1⟩

/-- Predecessor day (`d - timedelta(days=1)`). -/
def prevDay (d : Date) : Date :=
  if 1 < d.day then ⟨d.year, d.month, d.day - 1⟩
  else if 1 < d.month then ⟨d.year, d.month - 1, daysInMonth d.year (d.month - 1)⟩
  else ⟨d.year - 1, 12, 31⟩

/-- `d + timedelta(days=k)`. -/
def addDays (d : Date) : Nat → Date
  | 0 => d
  | k + 1 => nextDay (addDays d k)

/-- `d - timedelta(days=k)`. -/
def subDays (d : Date) : Nat → Date
  | 0 => d
  | k + 1 => prevDay (subDays d k)

/-- `d + relativedelta(months=k)`: advance the month index, clamping the
day to the target month's length, exactly as `dateutil` does. -/
def addMonths (d : Date) (k : Nat) : Date :=
  let m0 := d.month - 1 + k
  let y := d.year + m0 / 12
  let m := m0 % 12 + 1
  ⟨y, m, min d.day (daysInMonth y m)⟩

/-- `d + relativedelta(years=k)`: advance the year, clamping the day
(Feb 29 + 1 year = Feb 28), exactly as `dateutil` does. -/
def addYears (d : Date) (k : Nat) : Date :=
  let y := d.year + k
  ⟨y, d.month, min d.day (daysInMonth y d.month)⟩

/-! ### The recurrence functions of `coordinator.py` -/

/-- `WEEK_LAST` from `const.py`: sentinel ordinal for "last X of month". -/
def WEEK_LAST : Nat := 5

/-- `calculate_next_due(from_date, frequency)`: fixed-interval calculator.
`none` models Python `None` (one-off chores are not rescheduled). -/
def calculate_next_due (from_date : Date) (frequency : String) : Option Date :=
  if frequency = "once" then none
  else if frequency = "daily" then some (addDays from_date 1)
  else if frequency = "weekly" then some (addDays from_date 7)
  else if frequency = "biweekly" then some (addDays from_date 14)
  else if frequency = "monthly" then some (addMonths from_date 1)
  else if frequency = "bimonthly" then some (addMonths from_date 2)
  else if frequency = "quarterly" then some (addMonths from_date 3)
  else if frequency = "biannual" then some (addMonths from_date 6)
  else if frequency = "yearly" then some (addYears from_date 1)
  else some from_date

/-- `get_week_bounds(for_date)`: Sunday start and Saturday end of the week. -/
def get_week_bounds (for_date : Date) : Date × Date :=
  let days_since_sunday := (pyWeekday for_date + 1) % 7
  let week_start := subDays for_date days_since_sunday
  let week_end := addDays week_start 6
  (week_start, week_end)

/-- `get_nth_weekday_of_month(year, month, weekday, n)`.
`weekday` uses the integration's Sunday=0 convention; `n` is 1-4 or 5 for
"last".  Python computes `python_weekday = (weekday - 1) % 7` with floor
mod, which for `0 ≤ weekday` equals `(weekday + 6) % 7`; likewise
`days_back = (last_day.weekday() - python_weekday) % 7` and
`days_ahead = (python_weekday - first_day.weekday()) % 7` have both
operands in `[0, 7)`, so they equal the `+ 7 -` forms below on `Nat`.
The `timedelta(weeks=n - 1)` offset uses truncated subtraction; every
caller passes `n ≥ 1`. -/
def get_nth_weekday_of_month (year month weekday n : Nat) : Option Date :=
  let python_weekday := (weekday + 6) % 7
  let first_day : Date := ⟨year, month, 1⟩
  let days_in_month := daysInMonth year month
  if n = WEEK_LAST then
    let last_day : Date := ⟨year, month, days_in_month⟩
    let days_back := (pyWeekday last_day + 7 - python_weekday) % 7
    some (subDays last_day days_back)
  else
    let days_ahead := (python_weekday + 7 - pyWeekday first_day) % 7
    let first_occurrence := addDays first_day days_ahead
    let result := addDays first_occurrence ((n - 1) * 7)
    if result.month ≠ month then none
    else some result

/-- `calculate_next_anchored_weekly(from_date, anchor_days, interval)`.
Python's `sorted()` is modelled by insertion sort (ascending sorting of a
list of naturals is unique, so any sorting function is faithful). -/
def calculate_next_anchored_weekly (from_date : Date) (anchor_days : List Nat)
    (interval : Nat) : Date :=
  if anchor_days = [] then addDays from_date (7 * interval)
  else
    let sorted_days := List.insertionSort (· ≤ ·) anchor_days
    let current_dow := (pyWeekday from_date + 1) % 7
    match sorted_days.find? (fun day => decide (current_dow < day)) with
    | some day => addDays from_date (day - current_dow)
    | none =>
      -- sorted_days[0]; the guard above makes the list nonempty,
      -- so the default is never read
      let first_anchor := sorted_days.headD 0
      -- Python: days_until_sunday = (7 - current_dow) % 7 or 7
      let days_until_sunday :=
        if (7 - current_dow) % 7 = 0 then 7 else (7 - current_dow) % 7
      addDays from_date (days_until_sunday + first_anchor + (interval - 1) * 7)

/-- The `while target_date is None and attempts < 12` search in
`calculate_next_anchored_monthly`, with the number of remaining attempts
made explicit: check the current month, and while the pattern is missing
advance one month at a time. -/
def weekPatternLoop (anchor_weekday anchor_week : Nat) :
    Nat → Date → Option Date
  | 0, cur =>
    get_nth_weekday_of_month cur.year cur.month anchor_weekday anchor_week
  | fuel + 1, cur =>
    match get_nth_weekday_of_month cur.year cur.month anchor_weekday anchor_week with
    | some t => some t
    | none => weekPatternLoop anchor_weekday anchor_week fuel (addMonths cur 1)

/-- `calculate_next_anchored_monthly(from_date, anchor_type, ...)`. -/
def calculate_next_anchored_monthly (from_date : Date) (anchor_type : String)
    (anchor_day_of_month anchor_week anchor_weekday : Option Nat)
    (months_interval : Nat) : Date :=
  if anchor_type = "day_of_month" then
    -- Python: target_day = anchor_day_of_month or 1 (both None and 0 are falsy)
    let target_day := match anchor_day_of_month with
      | none => 1
      | some v => if v = 0 then 1 else v
    let year := from_date.year
    let month := from_date.month
    let days_in_month := daysInMonth year month
    let actual_day := min target_day days_in_month
    let target_date : Date := ⟨year, month, actual_day⟩
    if from_date.lt target_date then target_date
    else
      let next_month_date := addMonths from_date months_interval
      let year := next_month_date.year
      let month := next_month_date.month
      let days_in_month := daysInMonth year month
      let actual_day := min target_day days_in_month
      ⟨year, month, actual_day⟩
  else if anchor_type = "week_pattern" then
    match anchor_week, anchor_weekday with
    | some anchor_week, some anchor_weekday =>
      let target_date := get_nth_weekday_of_month from_date.year from_date.month
        anchor_weekday anchor_week
      -- Python: `if target_date and target_date > from_date: return target_date`
      match target_date with
      | some t =>
        if from_date.lt t then t
        else
          match weekPatternLoop anchor_weekday anchor_week 12
              (addMonths from_date months_interval) with
          | some t2 => t2
          | none => addMonths from_date months_interval
      | none =>
        match weekPatternLoop anchor_weekday anchor_week 12
            (addMonths from_date months_interval) with
        | some t2 => t2
        | none => addMonths from_date months_interval
    | _, _ => addMonths from_date months_interval
  else addMonths from_date months_interval

/-- A chore record, restricted to the keys `calculate_next_due_for_chore`
reads; `none` models an absent dictionary key. -/
structure Chore where
  frequency : Option String := none
  recurrence_type : Option String := none
  interval : Option Nat := none
  anchor_days_of_week : Option (List Nat) := none
  anchor_type : Option String := none
  anchor_day_of_month : Option Nat := none
  anchor_week : Option Nat := none
  anchor_weekday : Option Nat := none

/-- `calculate_next_due_for_chore(chore, from_date)`: the dispatcher. -/
def calculate_next_due_for_chore (chore : Chore) (from_date : Date) :
    Option Date :=
  let frequency := chore.frequency.getD "weekly"
  let recurrence_type := chore.recurrence_type.getD "interval"
  let interval := chore.interval.getD 1
  if frequency = "once" then none
  else if recurrence_type ≠ "anchored" then calculate_next_due from_date frequency
  else if frequency = "weekly" ∨ frequency = "biweekly" then
    let anchor_days := chore.anchor_days_of_week.getD []
    let week_interval := if frequency = "biweekly" then 2 else interval
    some (calculate_next_anchored_weekly from_date anchor_days week_interval)
  else if frequency = "monthly" ∨ frequency = "bimonthly" ∨
      frequency = "quarterly" ∨ frequency = "biannual" then
    let anchor_type := chore.anchor_type.getD "day_of_month"
    let months_map : Nat :=
      if frequency = "monthly" then 1
      else if frequency = "bimonthly" then 2
      else if frequency = "quarterly" then 3
      else if frequency = "biannual" then 6
      else 1
    let months_interval := months_map * interval
    some (calculate_next_anchored_monthly from_date anchor_type
      chore.anchor_day_of_month chore.anchor_week chore.anchor_weekday
      months_interval)
  else if frequency = "yearly" then
    let anchor_type := chore.anchor_type.getD "day_of_month"
    some (calculate_next_anchored_monthly from_date anchor_type
      chore.anchor_day_of_month chore.anchor_week chore.anchor_weekday
      (12 * interval))
  else calculate_next_due from_date frequency

/-! ### Basic calendar facts -/

theorem daysInMonth_ge (y m : Nat) : 28 ≤ daysInMonth y m := by
  unfold daysInMonth
  split
  · split <;> omega
  · split <;> omega

theorem daysInMonth_le (y m : Nat) : daysInMonth y m ≤ 31 := by
  unfold daysInMonth
  split
  · split <;> omega
  · split <;> omega

theorem daysBeforeMonth_succ (y m : Nat) (hm : 1 ≤ m) :
    daysBeforeMonth y (m + 1) = daysBeforeMonth y m + daysInMonth y m := by
  match m, hm with
  | j + 1, _ => rfl

theorem daysInYear (y : Nat) :
    daysBeforeMonth y 12 + daysInMonth y 12 =
      365 + (if isLeap y then 1 else 0) := by
  cases h : isLeap y <;>
    simp only [daysBeforeMonth, daysInMonth, h, if_true, if_false] <;> norm_num

theorem isLeap_iff (y : Nat) :
    isLeap y = true ↔ ((y % 4 = 0 ∧ ¬y % 100 = 0) ∨ y % 400 = 0) := by
  unfold isLeap
  simp [Bool.or_eq_true, Bool.and_eq_true, beq_iff_eq, bne_iff_ne]

set_option maxHeartbeats 1600000 in
theorem daysBeforeYear_succ (y : Nat) (hy : 1 ≤ y) :
    daysBeforeYear (y + 1) =
      daysBeforeYear y + 365 + (if isLeap y then 1 else 0) := by
  by_cases h : isLeap y
  · rw [if_pos h]
    rw [isLeap_iff] at h
    unfold daysBeforeYear
    omega
  · rw [if_neg h]
    rw [isLeap_iff] at h
    unfold daysBeforeYear
    omega

theorem toOrdinal_nextDay (d : Date) (hd : d.Valid) :
    (nextDay d).toOrdinal = d.toOrdinal + 1 := by
  obtain ⟨hy, hm1, hm2, hd1, hd2⟩ := hd
  unfold nextDay
  split
  · simp only [Date.toOrdinal]
    omega
  · rename_i hday
    split
    · rename_i hmonth
      have hstep := daysBeforeMonth_succ d.year d.month hm1
      simp only [Date.toOrdinal]
      omega
    · rename_i hmonth
      have h12 : d.month = 12 := by omega
      have hyr := daysBeforeYear_succ d.year hy
      have hylen := daysInYear d.year
      have hb1 : daysBeforeMonth (d.year + 1) 1 = 0 := rfl
      rw [h12] at hd2 hday
      simp only [Date.toOrdinal, h12]
      omega

theorem valid_nextDay (d : Date) (hd : d.Valid) : (nextDay d).Valid := by
  obtain ⟨hy, hm1, hm2, hd1, hd2⟩ := hd
  have h1 := daysInMonth_ge d.year (d.month + 1)
  have h2 := daysInMonth_ge (d.year + 1) 1
  unfold nextDay
  split
  · show 1 ≤ d.year ∧ 1 ≤ d.month ∧ d.month ≤ 12 ∧ 1 ≤ d.day + 1 ∧
      d.day + 1 ≤ daysInMonth d.year d.month
    omega
  · split
    · show 1 ≤ d.year ∧ 1 ≤ d.month + 1 ∧ d.month + 1 ≤ 12 ∧ 1 ≤ 1 ∧
        1 ≤ daysInMonth d.year (d.month + 1)
      omega
    · show 1 ≤ d.year + 1 ∧ 1 ≤ 1 ∧ 1 ≤ 12 ∧ 1 ≤ 1 ∧
        1 ≤ daysInMonth (d.year + 1) 1
      omega

theorem lt_nextDay (d : Date) : d.lt (nextDay d) := by
  unfold nextDay
  split
  · exact Or.inr ⟨rfl, Or.inr ⟨rfl, Nat.lt_succ_self d.day⟩⟩
  · split
    · exact Or.inr ⟨rfl, Or.inl (Nat.lt_succ_self d.month)⟩
    · exact Or.inl (Nat.lt_succ_self d.year)

theorem Date.lt_trans {a b c : Date} (h1 : a.lt b) (h2 : b.lt c) : a.lt c := by
  unfold Date.lt at *; omega

theorem addDays_valid_ord (d : Date) (hd : d.Valid) (k : Nat) :
    (addDays d k).Valid ∧ (addDays d k).toOrdinal = d.toOrdinal + k := by
  induction k with
  | zero => exact ⟨hd, rfl⟩
  | succ k ih =>
    refine ⟨valid_nextDay _ ih.1, ?_⟩
    show (nextDay (addDays d k)).toOrdinal = _
    rw [toOrdinal_nextDay _ ih.1, ih.2]
    omega

theorem lt_addDays (d : Date) (k : Nat) (hk : 1 ≤ k) : d.lt (addDays d k) := by
  induction k with
  | zero => omega
  | succ k ih =>
    rcases Nat.eq_or_lt_of_le hk with h | h
    · show d.lt (nextDay (addDays d k))
      have : addDays d k = d := by
        have : k = 0 := by omega
        rw [this]; rfl
      rw [this]; exact lt_nextDay d
    · exact Date.lt_trans (ih (by omega)) (lt_nextDay _)

theorem le_addDays (d : Date) (k : Nat) : d.le (addDays d k) := by
  cases k with
  | zero => exact Or.inr rfl
  | succ k => exact Or.inl (lt_addDays d (k + 1) (by omega))

theorem addDays_add (d : Date) (a b : Nat) :
    addDays d (a + b) = addDays (addDays d a) b := by
  induction b with
  | zero => rfl
  | succ b ih => show nextDay (addDays d (a + b)) = _; rw [ih]; rfl

theorem addDays_within_month (d : Date) (k : Nat)
    (h : d.day + k ≤ daysInMonth d.year d.month) :
    addDays d k = ⟨d.year, d.month, d.day + k⟩ := by
  induction k with
  | zero => rfl
  | succ k ih =>
    show nextDay (addDays d k) = _
    rw [ih (by omega)]
    unfold nextDay
    rw [if_pos (show d.day + k < daysInMonth d.year d.month by omega)]
    rw [← Nat.add_assoc]

theorem subDays_within_month (d : Date) (k : Nat) (h : k < d.day) :
    subDays d k = ⟨d.year, d.month, d.day - k⟩ := by
  induction k with
  | zero => rfl
  | succ k ih =>
    show prevDay (subDays d k) = _
    rw [ih (by omega)]
    unfold prevDay
    rw [if_pos (show 1 < d.day - k by omega)]
    have he : d.day - (k + 1) = d.day - k - 1 := by omega
    rw [he]

theorem toOrdinal_min : (Date.mk 1 1 1).toOrdinal = 1 := rfl

theorem toOrdinal_pos (d : Date) (hd : d.Valid) : 1 ≤ d.toOrdinal := by
  obtain ⟨hy, hm1, hm2, hd1, hd2⟩ := hd
  unfold Date.toOrdinal
  omega

theorem prevDay_spec (d : Date) (hd : d.Valid) (hne : d ≠ ⟨1, 1, 1⟩) :
    (prevDay d).Valid ∧ nextDay (prevDay d) = d := by
  obtain ⟨y, m, dy⟩ := d
  obtain ⟨hy, hm1, hm2, hd1, hd2⟩ := hd
  simp only at hy hm1 hm2 hd1 hd2
  unfold prevDay
  split
  · rename_i hday
    simp only at hday
    constructor
    · show 1 ≤ y ∧ 1 ≤ m ∧ m ≤ 12 ∧ 1 ≤ dy - 1 ∧ dy - 1 ≤ daysInMonth y m
      omega
    · unfold nextDay
      rw [if_pos (show dy - 1 < daysInMonth y m by omega)]
      have : dy - 1 + 1 = dy := by omega
      rw [this]
  · split
    · rename_i hday hmon
      simp only at hday hmon
      have hdy1 : dy = 1 := by omega
      have hge := daysInMonth_ge y (m - 1)
      constructor
      · show 1 ≤ y ∧ 1 ≤ m - 1 ∧ m - 1 ≤ 12 ∧ 1 ≤ daysInMonth y (m - 1) ∧
          daysInMonth y (m - 1) ≤ daysInMonth y (m - 1)
        omega
      · unfold nextDay
        rw [if_neg (show ¬daysInMonth y (m - 1) < daysInMonth y (m - 1) by omega)]
        rw [if_pos (show m - 1 < 12 by omega)]
        have : m - 1 + 1 = m := by omega
        rw [this, hdy1]
    · rename_i hday hmon
      simp only at hday hmon
      have hdy1 : dy = 1 := by omega
      have hm1' : m = 1 := by omega
      subst hdy1 hm1'
      have hy2 : 2 ≤ y := by
        by_contra hc
        have : y = 1 := by omega
        subst this
        exact hne rfl
      have h31 : daysInMonth (y - 1) 12 = 31 := rfl
      constructor
      · show 1 ≤ y - 1 ∧ 1 ≤ 12 ∧ 12 ≤ 12 ∧ 1 ≤ 31 ∧ 31 ≤ daysInMonth (y - 1) 12
        omega
      · unfold nextDay
        rw [if_neg (show ¬(31 : Nat) < daysInMonth (y - 1) 12 by omega)]
        rw [if_neg (show ¬(12 : Nat) < 12 by omega)]
        have : y - 1 + 1 = y := by omega
        rw [this]

theorem toOrdinal_prevDay (d : Date) (hd : d.Valid) (h2 : 2 ≤ d.toOrdinal) :
    (prevDay d).Valid ∧ (prevDay d).toOrdinal + 1 = d.toOrdinal := by
  have hne : d ≠ ⟨1, 1, 1⟩ := by
    intro h
    rw [h, toOrdinal_min] at h2
    omega
  obtain ⟨hv, hnx⟩ := prevDay_spec d hd hne
  refine ⟨hv, ?_⟩
  have := toOrdinal_nextDay (prevDay d) hv
  rw [hnx] at this
  omega

theorem subDays_spec (d : Date) (hd : d.Valid) (k : Nat) (hk : k < d.toOrdinal) :
    (subDays d k).Valid ∧ (subDays d k).toOrdinal + k = d.toOrdinal ∧
      addDays (subDays d k) k = d := by
  induction k with
  | zero => exact ⟨hd, by
      show d.toOrdinal + 0 = d.toOrdinal
      omega, rfl⟩
  | succ k ih =>
    obtain ⟨hv, ho, ha⟩ := ih (by omega)
    have h2 : 2 ≤ (subDays d k).toOrdinal := by omega
    obtain ⟨hv', ho'⟩ := toOrdinal_prevDay _ hv h2
    refine ⟨hv', by
      show (prevDay (subDays d k)).toOrdinal + (k + 1) = d.toOrdinal
      omega, ?_⟩
    show addDays (prevDay (subDays d k)) (k + 1) = d
    have hcomm : addDays (prevDay (subDays d k)) (k + 1) =
        addDays (nextDay (prevDay (subDays d k))) k := by
      have : k + 1 = 1 + k := by omega
      rw [this, addDays_add]
      rfl
    rw [hcomm, (prevDay_spec (subDays d k) hv (by
      intro h
      rw [h, toOrdinal_min] at h2
      omega)).2, ha]

theorem sundayDow_eq (d : Date) : sundayDow d = d.toOrdinal % 7 := by
  unfold sundayDow pyWeekday
  omega

/-! ### Sanity checks against the spec's §8 test vectors
(weekday codes: 0=Sunday .. 6=Saturday; 2024-06-11 is a Tuesday) -/

example : pyWeekday ⟨2024, 6, 11⟩ = 1 := by decide
example : get_week_bounds ⟨2024, 6, 11⟩ = (⟨2024, 6, 9⟩, ⟨2024, 6, 15⟩) := by decide
example : calculate_next_anchored_weekly ⟨2024, 6, 11⟩ [1, 4] 1 = ⟨2024, 6, 13⟩ := by decide
example : calculate_next_anchored_weekly ⟨2024, 6, 14⟩ [1, 4] 1 = ⟨2024, 6, 17⟩ := by decide
example : calculate_next_anchored_weekly ⟨2024, 6, 14⟩ [1] 2 = ⟨2024, 6, 24⟩ := by decide
example : calculate_next_anchored_monthly ⟨2024, 6, 20⟩ "day_of_month"
    (some 15) none none 1 = ⟨2024, 7, 15⟩ := by decide
example : calculate_next_anchored_monthly ⟨2024, 6, 1⟩ "week_pattern"
    none (some 2) (some 2) 1 = ⟨2024, 6, 11⟩ := by decide
example : calculate_next_anchored_monthly ⟨2024, 6, 15⟩ "week_pattern"
    none (some 2) (some 2) 1 = ⟨2024, 7, 9⟩ := by decide
example : calculate_next_due ⟨2024, 1, 31⟩ "monthly" = some ⟨2024, 2, 29⟩ := by decide
example : calculate_next_due ⟨2023, 1, 31⟩ "monthly" = some ⟨2023, 2, 28⟩ := by decide
example : get_nth_weekday_of_month 2024 6 2 2 = some ⟨2024, 6, 11⟩ := by decide
example : get_nth_weekday_of_month 2024 6 1 5 = some ⟨2024, 6, 24⟩ := by decide

/-! ### Month/year advance moves strictly forward -/

theorem lt_addMonths (d : Date) (k : Nat) (hk : 1 ≤ k) : d.lt (addMonths d k) := by
  show d.year < d.year + (d.month - 1 + k) / 12 ∨
    (d.year = d.year + (d.month - 1 + k) / 12 ∧
      (d.month < (d.month - 1 + k) % 12 + 1 ∨
        (d.month = (d.month - 1 + k) % 12 + 1 ∧
          d.day < min d.day (daysInMonth (d.year + (d.month - 1 + k) / 12)
            ((d.month - 1 + k) % 12 + 1)))))
  omega

theorem lt_addYears (d : Date) (k : Nat) (hk : 1 ≤ k) : d.lt (addYears d k) := by
  show d.year < d.year + k ∨
    (d.year = d.year + k ∧
      (d.month < d.month ∨ (d.month = d.month ∧
        d.day < min d.day (daysInMonth (d.year + k) d.month))))
  omega

theorem addMonths_day (d : Date) (k : Nat) :
    (addMonths d k).day =
      min d.day (daysInMonth (addMonths d k).year (addMonths d k).month) := rfl

theorem addYears_day (d : Date) (k : Nat) :
    (addYears d k).day =
      min d.day (daysInMonth (d.year + k) d.month) := rfl

/-! ### Claim theorems -/

/-- C1: for every reference date and every recurrence_type value,
`calculate_next_due_for_chore` on a chore whose frequency is `once` returns
no next occurrence, and `calculate_next_due(d, "once")` is `None` for
every date `d`. -/
theorem C1_once_never_reschedules (chore : Chore) (d : Date)
    (h : chore.frequency = some "once") :
    calculate_next_due_for_chore chore d = none ∧
      calculate_next_due d "once" = none := by
  constructor
  · unfold calculate_next_due_for_chore
    rw [h]
    rfl
  · rfl

theorem C1_witness :
    calculate_next_due_for_chore
        { frequency := some "once", recurrence_type := some "anchored" }
        ⟨2024, 6, 11⟩ = none ∧
      calculate_next_due ⟨2024, 6, 11⟩ "once" = none :=
  C1_once_never_reschedules
    { frequency := some "once", recurrence_type := some "anchored" }
    ⟨2024, 6, 11⟩ rfl

/-- C2: for every date and every supported frequency other than `once`,
`calculate_next_due` returns a date strictly greater than the input. -/
theorem C2_strictly_forward (d : Date) (f : String)
    (hf : f ∈ (["daily", "weekly", "biweekly", "monthly", "bimonthly",
      "quarterly", "biannual", "yearly"] : List String)) :
    ∃ t, calculate_next_due d f = some t ∧ d.lt t := by
  simp only [List.mem_cons, List.not_mem_nil, or_false] at hf
  rcases hf with h | h | h | h | h | h | h | h <;> subst h
  · exact ⟨addDays d 1, rfl, lt_addDays d 1 (by omega)⟩
  · exact ⟨addDays d 7, rfl, lt_addDays d 7 (by omega)⟩
  · exact ⟨addDays d 14, rfl, lt_addDays d 14 (by omega)⟩
  · exact ⟨addMonths d 1, rfl, lt_addMonths d 1 (by omega)⟩
  · exact ⟨addMonths d 2, rfl, lt_addMonths d 2 (by omega)⟩
  · exact ⟨addMonths d 3, rfl, lt_addMonths d 3 (by omega)⟩
  · exact ⟨addMonths d 6, rfl, lt_addMonths d 6 (by omega)⟩
  · exact ⟨addYears d 1, rfl, lt_addYears d 1 (by omega)⟩

theorem C2_witness :
    ∃ t, calculate_next_due ⟨2024, 2, 29⟩ "yearly" = some t ∧
      Date.lt ⟨2024, 2, 29⟩ t :=
  C2_strictly_forward ⟨2024, 2, 29⟩ "yearly" (by simp)

/-- C5: calendar-month and calendar-year addition in `calculate_next_due`
clamps to the target month's last day whenever the source day-of-month does
not exist there; in particular 2024-01-31 + 1 month = 2024-02-29 and
2023-01-31 + 1 month = 2023-02-28. -/
theorem C5_month_addition_clamps (d : Date) (f : String) (k : Nat)
    (hf : (f, k) ∈ ([("monthly", 1), ("bimonthly", 2), ("quarterly", 3),
      ("biannual", 6)] : List (String × Nat))) :
    (calculate_next_due d f = some (addMonths d k) ∧
      (daysInMonth (addMonths d k).year (addMonths d k).month < d.day →
        (addMonths d k).day =
          daysInMonth (addMonths d k).year (addMonths d k).month) ∧
      (d.day ≤ daysInMonth (addMonths d k).year (addMonths d k).month →
        (addMonths d k).day = d.day)) ∧
    calculate_next_due d "yearly" = some (addYears d 1) ∧
    (daysInMonth (d.year + 1) d.month < d.day →
      (addYears d 1).day = daysInMonth (d.year + 1) d.month) ∧
    (d.day ≤ daysInMonth (d.year + 1) d.month → (addYears d 1).day = d.day) ∧
    calculate_next_due ⟨2024, 1, 31⟩ "monthly" = some ⟨2024, 2, 29⟩ ∧
    calculate_next_due ⟨2023, 1, 31⟩ "monthly" = some ⟨2023, 2, 28⟩ := by
  have hm := addMonths_day d k
  have hy := addYears_day d 1
  refine ⟨?_, rfl, by omega, by omega, by decide, by decide⟩
  simp only [List.mem_cons, List.not_mem_nil, or_false, Prod.mk.injEq] at hf
  rcases hf with ⟨h1, h2⟩ | ⟨h1, h2⟩ | ⟨h1, h2⟩ | ⟨h1, h2⟩ <;> subst h1 <;> subst h2 <;>
    exact ⟨rfl, by omega, by omega⟩

theorem C5_witness :
    (calculate_next_due ⟨2024, 1, 31⟩ "monthly" = some (addMonths ⟨2024, 1, 31⟩ 1) ∧
      (daysInMonth (addMonths ⟨2024, 1, 31⟩ 1).year (addMonths ⟨2024, 1, 31⟩ 1).month < 31 →
        (addMonths ⟨2024, 1, 31⟩ 1).day =
          daysInMonth (addMonths ⟨2024, 1, 31⟩ 1).year (addMonths ⟨2024, 1, 31⟩ 1).month) ∧
      (31 ≤ daysInMonth (addMonths ⟨2024, 1, 31⟩ 1).year (addMonths ⟨2024, 1, 31⟩ 1).month →
        (addMonths ⟨2024, 1, 31⟩ 1).day = 31)) ∧
    calculate_next_due ⟨2024, 1, 31⟩ "yearly" = some (addYears ⟨2024, 1, 31⟩ 1) ∧
    (daysInMonth (2024 + 1) 1 < 31 → (addYears ⟨2024, 1, 31⟩ 1).day = daysInMonth (2024 + 1) 1) ∧
    (31 ≤ daysInMonth (2024 + 1) 1 → (addYears ⟨2024, 1, 31⟩ 1).day = 31) ∧
    calculate_next_due ⟨2024, 1, 31⟩ "monthly" = some ⟨2024, 2, 29⟩ ∧
    calculate_next_due ⟨2023, 1, 31⟩ "monthly" = some ⟨2023, 2, 28⟩ :=
  C5_month_addition_clamps ⟨2024, 1, 31⟩ "monthly" 1 (by simp)

/-- C6: an unrecognized frequency string makes `calculate_next_due` return
the input date unchanged (and, being a total function, it raises nothing). -/
theorem C6_unknown_frequency (d : Date) (f : String)
    (hf : f ∉ (["once", "daily", "weekly", "biweekly", "monthly", "bimonthly",
      "quarterly", "biannual", "yearly"] : List String)) :
    calculate_next_due d f = some d := by
  simp only [List.mem_cons, List.not_mem_nil, or_false, not_or] at hf
  obtain ⟨h1, h2, h3, h4, h5, h6, h7, h8, h9⟩ := hf
  unfold calculate_next_due
  rw [if_neg h1, if_neg h2, if_neg h3, if_neg h4, if_neg h5, if_neg h6,
    if_neg h7, if_neg h8, if_neg h9]

theorem C6_witness : calculate_next_due ⟨2024, 6, 11⟩ "fortnightly" =
    some ⟨2024, 6, 11⟩ :=
  C6_unknown_frequency ⟨2024, 6, 11⟩ "fortnightly" (by simp)

/-- C9: a chore configuration lacking the `recurrence_type` key behaves
exactly like the same configuration with `recurrence_type = "interval"`. -/
theorem C9_default_recurrence_is_interval (chore : Chore) (d : Date)
    (h : chore.recurrence_type = none) :
    calculate_next_due_for_chore chore d =
      calculate_next_due_for_chore
        { chore with recurrence_type := some "interval" } d := by
  unfold calculate_next_due_for_chore
  rw [h]
  rfl

theorem C9_witness :
    calculate_next_due_for_chore { frequency := some "daily" } ⟨2024, 6, 11⟩ =
      calculate_next_due_for_chore
        { frequency := some "daily", recurrence_type := some "interval" }
        ⟨2024, 6, 11⟩ :=
  C9_default_recurrence_is_interval { frequency := some "daily" } ⟨2024, 6, 11⟩ rfl

theorem get_week_bounds_def (d : Date) :
    get_week_bounds d = (subDays d ((pyWeekday d + 1) % 7),
      addDays (subDays d ((pyWeekday d + 1) % 7)) 6) := rfl

/-- C8: `get_week_bounds(d)` brackets `d` in a Sunday-to-Saturday week:
week_start ≤ d ≤ week_end, the bounds are 6 days apart, week_start is a
Sunday and week_end a Saturday.  (The ordinal bound keeps the subtraction
inside the calendar; Python itself overflows on the first six days of
year 1.) -/
theorem C8_week_bounds (d : Date) (hd : d.Valid) (h7 : 7 ≤ d.toOrdinal) :
    Date.le (get_week_bounds d).1 d ∧ Date.le d (get_week_bounds d).2 ∧
      (get_week_bounds d).2 = addDays (get_week_bounds d).1 6 ∧
      (get_week_bounds d).2.toOrdinal = (get_week_bounds d).1.toOrdinal + 6 ∧
      sundayDow (get_week_bounds d).1 = 0 ∧
      sundayDow (get_week_bounds d).2 = 6 := by
  have hdss : (pyWeekday d + 1) % 7 = d.toOrdinal % 7 := by
    unfold pyWeekday
    omega
  have hle6 : (pyWeekday d + 1) % 7 ≤ 6 := by omega
  have hlt : (pyWeekday d + 1) % 7 < d.toOrdinal := by omega
  obtain ⟨hv, ho, ha⟩ := subDays_spec d hd ((pyWeekday d + 1) % 7) hlt
  have hoe := (addDays_valid_ord (subDays d ((pyWeekday d + 1) % 7)) hv 6).2
  have hx : (pyWeekday d + 1) % 7 + (6 - (pyWeekday d + 1) % 7) = 6 := by omega
  have h2 : addDays (subDays d ((pyWeekday d + 1) % 7)) 6 =
      addDays d (6 - (pyWeekday d + 1) % 7) := by
    conv_lhs => rw [← hx]
    rw [addDays_add, ha]
  simp only [get_week_bounds_def]
  refine ⟨?_, ?_, trivial, hoe, ?_, ?_⟩
  · rcases Nat.eq_zero_or_pos ((pyWeekday d + 1) % 7) with h0 | hpos
    · rw [h0]
      exact Or.inr rfl
    · refine Or.inl ?_
      have hlt2 := lt_addDays (subDays d ((pyWeekday d + 1) % 7)) _ hpos
      rwa [ha] at hlt2
  · rw [h2]
    exact le_addDays d _
  · rw [sundayDow_eq]
    omega
  · rw [sundayDow_eq, hoe]
    omega

theorem C8_witness :
    Date.le (get_week_bounds ⟨2024, 6, 11⟩).1 ⟨2024, 6, 11⟩ ∧
      Date.le ⟨2024, 6, 11⟩ (get_week_bounds ⟨2024, 6, 11⟩).2 ∧
      (get_week_bounds ⟨2024, 6, 11⟩).2 =
        addDays (get_week_bounds ⟨2024, 6, 11⟩).1 6 ∧
      (get_week_bounds ⟨2024, 6, 11⟩).2.toOrdinal =
        (get_week_bounds ⟨2024, 6, 11⟩).1.toOrdinal + 6 ∧
      sundayDow (get_week_bounds ⟨2024, 6, 11⟩).1 = 0 ∧
      sundayDow (get_week_bounds ⟨2024, 6, 11⟩).2 = 6 :=
  C8_week_bounds ⟨2024, 6, 11⟩ (by decide) (by decide)

/-! ### Facts about `get_nth_weekday_of_month` -/

theorem get_nth_last_def (y m w : Nat) :
    get_nth_weekday_of_month y m w 5 = some (subDays ⟨y, m, daysInMonth y m⟩
      ((pyWeekday ⟨y, m, daysInMonth y m⟩ + 7 - (w + 6) % 7) % 7)) := rfl

theorem nextDay_year (d : Date) : d.year ≤ (nextDay d).year := by
  unfold nextDay
  split
  · exact le_refl _
  · split
    · exact le_refl _
    · show d.year ≤ d.year + 1
      omega

theorem year_le_addDays (d : Date) (k : Nat) : d.year ≤ (addDays d k).year := by
  induction k with
  | zero => exact le_refl _
  | succ k ih => exact le_trans ih (nextDay_year (addDays d k))

theorem addMonths_ym (d : Date) (k : Nat) (hk : 1 ≤ k) :
    d.year < (addMonths d k).year ∨
      (d.year = (addMonths d k).year ∧ d.month < (addMonths d k).month) := by
  show d.year < d.year + (d.month - 1 + k) / 12 ∨
    (d.year = d.year + (d.month - 1 + k) / 12 ∧
      d.month < (d.month - 1 + k) % 12 + 1)
  omega

theorem lt_mk_addMonths (d : Date) (k : Nat) (hk : 1 ≤ k) (dd : Nat) :
    d.lt ⟨(addMonths d k).year, (addMonths d k).month, dd⟩ := by
  have hym := addMonths_ym d k hk
  show d.year < (addMonths d k).year ∨ (d.year = (addMonths d k).year ∧
    (d.month < (addMonths d k).month ∨
      (d.month = (addMonths d k).month ∧ d.day < dd)))
  omega

theorem addMonths_month_bounds (d : Date) (k : Nat) :
    1 ≤ (addMonths d k).month ∧ (addMonths d k).month ≤ 12 := by
  show 1 ≤ (d.month - 1 + k) % 12 + 1 ∧ (d.month - 1 + k) % 12 + 1 ≤ 12
  omega

/-- In every month the requested occurrence exists for ordinals 1-4 and for
the "last" sentinel; the result stays in the queried month with its day in
range, and its weekday (Sunday=0 code) is the requested one. -/
theorem get_nth_spec (y m w n : Nat) (hw : w ≤ 6) (hn1 : 1 ≤ n) (hn5 : n ≤ 5) :
    ∃ t, get_nth_weekday_of_month y m w n = some t ∧ t.year = y ∧ t.month = m ∧
      1 ≤ t.day ∧ t.day ≤ daysInMonth y m ∧ sundayDow t = w := by
  have h28 := daysInMonth_ge y m
  by_cases h5 : n = 5
  · subst h5
    have hdb : (pyWeekday ⟨y, m, daysInMonth y m⟩ + 7 - (w + 6) % 7) % 7 ≤ 6 := by
      omega
    have hsub : subDays (Date.mk y m (daysInMonth y m))
        ((pyWeekday ⟨y, m, daysInMonth y m⟩ + 7 - (w + 6) % 7) % 7) =
        Date.mk y m (daysInMonth y m -
          (pyWeekday ⟨y, m, daysInMonth y m⟩ + 7 - (w + 6) % 7) % 7) :=
      subDays_within_month _ _ (show _ < daysInMonth y m by omega)
    refine ⟨_, by rw [get_nth_last_def, hsub], rfl, rfl, ?_, ?_, ?_⟩
    · show 1 ≤ daysInMonth y m -
        (pyWeekday ⟨y, m, daysInMonth y m⟩ + 7 - (w + 6) % 7) % 7
      omega
    · show daysInMonth y m -
        (pyWeekday ⟨y, m, daysInMonth y m⟩ + 7 - (w + 6) % 7) % 7 ≤ daysInMonth y m
      omega
    · rw [sundayDow_eq]
      have hp : pyWeekday (Date.mk y m (daysInMonth y m)) =
          ((daysBeforeYear y + daysBeforeMonth y m + daysInMonth y m) + 6) % 7 := rfl
      have ht : (Date.mk y m (daysInMonth y m -
          (pyWeekday ⟨y, m, daysInMonth y m⟩ + 7 - (w + 6) % 7) % 7)).toOrdinal =
          daysBeforeYear y + daysBeforeMonth y m + (daysInMonth y m -
            (pyWeekday ⟨y, m, daysInMonth y m⟩ + 7 - (w + 6) % 7) % 7) := rfl
      omega
  · -- ordinals 1-4: first occurrence within the first 7 days, plus whole weeks
    have hda : ((w + 6) % 7 + 7 - pyWeekday ⟨y, m, 1⟩) % 7 ≤ 6 := by omega
    have hfo : addDays (Date.mk y m 1) (((w + 6) % 7 + 7 - pyWeekday ⟨y, m, 1⟩) % 7) =
        Date.mk y m (1 + ((w + 6) % 7 + 7 - pyWeekday ⟨y, m, 1⟩) % 7) :=
      addDays_within_month _ _ (show 1 + _ ≤ daysInMonth y m by omega)
    have hres : addDays (Date.mk y m
          (1 + ((w + 6) % 7 + 7 - pyWeekday ⟨y, m, 1⟩) % 7)) ((n - 1) * 7) =
        Date.mk y m (1 + ((w + 6) % 7 + 7 - pyWeekday ⟨y, m, 1⟩) % 7 + (n - 1) * 7) :=
      addDays_within_month _ _ (show 1 + _ + (n - 1) * 7 ≤ daysInMonth y m by omega)
    have hdef : get_nth_weekday_of_month y m w n =
        if (addDays (addDays ⟨y, m, 1⟩ (((w + 6) % 7 + 7 - pyWeekday ⟨y, m, 1⟩) % 7))
            ((n - 1) * 7)).month ≠ m then none
        else some (addDays (addDays ⟨y, m, 1⟩
            (((w + 6) % 7 + 7 - pyWeekday ⟨y, m, 1⟩) % 7)) ((n - 1) * 7)) := by
      simp only [get_nth_weekday_of_month, WEEK_LAST]
      rw [if_neg h5]
    rw [hfo, hres] at hdef
    rw [if_neg (show ¬ (Date.mk y m
        (1 + ((w + 6) % 7 + 7 - pyWeekday ⟨y, m, 1⟩) % 7 + (n - 1) * 7)).month ≠ m
      from by simp)] at hdef
    refine ⟨_, hdef, rfl, rfl, ?_, ?_, ?_⟩
    · show 1 ≤ 1 + ((w + 6) % 7 + 7 - pyWeekday ⟨y, m, 1⟩) % 7 + (n - 1) * 7
      omega
    · show 1 + ((w + 6) % 7 + 7 - pyWeekday ⟨y, m, 1⟩) % 7 + (n - 1) * 7 ≤
        daysInMonth y m
      omega
    · rw [sundayDow_eq]
      have hp : pyWeekday (Date.mk y m 1) =
          ((daysBeforeYear y + daysBeforeMonth y m + 1) + 6) % 7 := rfl
      have ht : (Date.mk y m (1 + ((w + 6) % 7 + 7 - pyWeekday ⟨y, m, 1⟩) % 7 +
          (n - 1) * 7)).toOrdinal =
          daysBeforeYear y + daysBeforeMonth y m +
            (1 + ((w + 6) % 7 + 7 - pyWeekday ⟨y, m, 1⟩) % 7 + (n - 1) * 7) := rfl
      omega

/-- C7: the "last" sentinel (n = 5) resolves by walking backward from the
month's last calendar day: the result exists, has the requested weekday,
and lies within the final 7 days of the month. -/
theorem C7_last_sentinel (y m w : Nat) (hy : 1 ≤ y) (hm1 : 1 ≤ m) (hm2 : m ≤ 12)
    (hw : w ≤ 6) :
    ∃ t, get_nth_weekday_of_month y m w 5 = some t ∧
      t = subDays ⟨y, m, daysInMonth y m⟩
        ((pyWeekday ⟨y, m, daysInMonth y m⟩ + 7 - (w + 6) % 7) % 7) ∧
      t.year = y ∧ t.month = m ∧ sundayDow t = w ∧
      daysInMonth y m ≤ t.day + 6 ∧ t.day ≤ daysInMonth y m := by
  obtain ⟨t, hdef, hty, htm, _, htd2, htw⟩ := get_nth_spec y m w 5 hw (by omega) (by omega)
  have heq : some (subDays ⟨y, m, daysInMonth y m⟩
      ((pyWeekday ⟨y, m, daysInMonth y m⟩ + 7 - (w + 6) % 7) % 7)) = some t := by
    rw [← get_nth_last_def, hdef]
  have heq2 := Option.some.inj heq
  have h28 := daysInMonth_ge y m
  have hdb : (pyWeekday ⟨y, m, daysInMonth y m⟩ + 7 - (w + 6) % 7) % 7 ≤ 6 := by omega
  have hsub : subDays (Date.mk y m (daysInMonth y m))
      ((pyWeekday ⟨y, m, daysInMonth y m⟩ + 7 - (w + 6) % 7) % 7) =
      Date.mk y m (daysInMonth y m -
        (pyWeekday ⟨y, m, daysInMonth y m⟩ + 7 - (w + 6) % 7) % 7) :=
    subDays_within_month _ _ (show _ < daysInMonth y m by omega)
  refine ⟨t, hdef, heq2.symm, hty, htm, htw, ?_, htd2⟩
  rw [hsub] at heq2
  have : t.day = daysInMonth y m -
      (pyWeekday ⟨y, m, daysInMonth y m⟩ + 7 - (w + 6) % 7) % 7 := by
    rw [← heq2]
  omega

theorem C7_witness :
    ∃ t, get_nth_weekday_of_month 2024 6 1 5 = some t ∧
      t = subDays ⟨2024, 6, daysInMonth 2024 6⟩
        ((pyWeekday ⟨2024, 6, daysInMonth 2024 6⟩ + 7 - (1 + 6) % 7) % 7) ∧
      t.year = 2024 ∧ t.month = 6 ∧ sundayDow t = 1 ∧
      daysInMonth 2024 6 ≤ t.day + 6 ∧ t.day ≤ daysInMonth 2024 6 :=
  C7_last_sentinel 2024 6 1 (by omega) (by omega) (by omega) (by omega)

/-- Whatever `n` is, a `some` answer of `get_nth_weekday_of_month` lies in
the queried month (the in-month check guarantees it) of the queried year
or a later one. -/
theorem get_nth_month (y m w n : Nat) (t : Date)
    (h : get_nth_weekday_of_month y m w n = some t) :
    t.month = m ∧ y ≤ t.year := by
  by_cases h5 : n = 5
  · subst h5
    rw [get_nth_last_def] at h
    have h28 := daysInMonth_ge y m
    have hdb : (pyWeekday ⟨y, m, daysInMonth y m⟩ + 7 - (w + 6) % 7) % 7 ≤ 6 := by
      omega
    have hsub : subDays (Date.mk y m (daysInMonth y m))
        ((pyWeekday ⟨y, m, daysInMonth y m⟩ + 7 - (w + 6) % 7) % 7) =
        Date.mk y m (daysInMonth y m -
          (pyWeekday ⟨y, m, daysInMonth y m⟩ + 7 - (w + 6) % 7) % 7) :=
      subDays_within_month _ _ (show _ < daysInMonth y m by omega)
    rw [hsub] at h
    have ht := Option.some.inj h
    rw [← ht]
    exact ⟨rfl, le_refl y⟩
  · simp only [get_nth_weekday_of_month, WEEK_LAST] at h
    rw [if_neg h5] at h
    by_cases hc : (addDays (addDays ⟨y, m, 1⟩
        (((w + 6) % 7 + 7 - pyWeekday ⟨y, m, 1⟩) % 7)) ((n - 1) * 7)).month ≠ m
    · rw [if_pos hc] at h
      cases h
    · rw [if_neg hc] at h
      have ht := Option.some.inj h
      push_neg at hc
      constructor
      · rw [← ht]
        exact hc
      · have hy := year_le_addDays (Date.mk y m 1)
          ((((w + 6) % 7 + 7 - pyWeekday ⟨y, m, 1⟩) % 7) + (n - 1) * 7)
        rw [addDays_add] at hy
        rw [← ht]
        exact hy

/-- Every `some` the month-by-month search returns is strictly after any
date whose (year, month) lie strictly before the cursor's. -/
theorem weekPatternLoop_lt (d : Date) (w n : Nat) :
    ∀ (fuel : Nat) (cur : Date),
      (d.year < cur.year ∨ (d.year = cur.year ∧ d.month < cur.month)) →
      ∀ t, weekPatternLoop w n fuel cur = some t → d.lt t := by
  intro fuel
  induction fuel with
  | zero =>
    intro cur hcur t ht
    have hm := get_nth_month cur.year cur.month w n t ht
    show d.year < t.year ∨ (d.year = t.year ∧
      (d.month < t.month ∨ (d.month = t.month ∧ d.day < t.day)))
    omega
  | succ f ih =>
    intro cur hcur t ht
    have hstep : weekPatternLoop w n (f + 1) cur =
        match get_nth_weekday_of_month cur.year cur.month w n with
        | some t2 => some t2
        | none => weekPatternLoop w n f (addMonths cur 1) := rfl
    rw [hstep] at ht
    cases hg : get_nth_weekday_of_month cur.year cur.month w n with
    | some t2 =>
      simp only [hg] at ht
      have hm := get_nth_month cur.year cur.month w n t (hg.trans ht)
      show d.year < t.year ∨ (d.year = t.year ∧
        (d.month < t.month ∨ (d.month = t.month ∧ d.day < t.day)))
      omega
    | none =>
      simp only [hg] at ht
      have hym := addMonths_ym cur 1 (le_refl 1)
      exact ih (addMonths cur 1) (by omega) t ht

/-- C4: `calculate_next_anchored_monthly` returns a date strictly after the
reference date for every anchor type, all anchor field values, and every
positive month interval. -/
theorem C4_anchored_monthly_strict (d : Date) (anchor_type : String)
    (adom aw awd : Option Nat) (k : Nat) (hk : 1 ≤ k) :
    d.lt (calculate_next_anchored_monthly d anchor_type adom aw awd k) := by
  have hym := addMonths_ym d k hk
  simp only [calculate_next_anchored_monthly]
  by_cases h1 : anchor_type = "day_of_month"
  · rw [if_pos h1]
    split
    · rename_i h
      exact h
    · exact lt_mk_addMonths d k hk _
  · rw [if_neg h1]
    by_cases h2 : anchor_type = "week_pattern"
    · rw [if_pos h2]
      cases aw with
      | none => cases awd <;> exact lt_addMonths d k hk
      | some nw =>
        cases awd with
        | none => exact lt_addMonths d k hk
        | some ww =>
          cases hg : get_nth_weekday_of_month d.year d.month ww nw with
          | some t =>
            simp only [hg]
            split
            · rename_i h
              exact h
            · cases hl : weekPatternLoop ww nw 12 (addMonths d k) with
              | some t2 =>
                simp only [hl]
                exact weekPatternLoop_lt d ww nw 12 (addMonths d k) hym t2 hl
              | none =>
                simp only [hl]
                exact lt_addMonths d k hk
          | none =>
            simp only [hg]
            cases hl : weekPatternLoop ww nw 12 (addMonths d k) with
            | some t2 =>
              simp only [hl]
              exact weekPatternLoop_lt d ww nw 12 (addMonths d k) hym t2 hl
            | none =>
              simp only [hl]
              exact lt_addMonths d k hk
    · rw [if_neg h2]
      exact lt_addMonths d k hk

theorem C4_witness :
    Date.lt ⟨2024, 6, 20⟩ (calculate_next_anchored_monthly ⟨2024, 6, 20⟩
      "day_of_month" (some 15) none none 1) :=
  C4_anchored_monthly_strict ⟨2024, 6, 20⟩ "day_of_month" (some 15) none none 1
    (by omega)

/-- When the pattern already exists in the cursor month, the search
returns it immediately, whatever fuel remains. -/
theorem weekPatternLoop_first (w n : Nat) (fuel : Nat) (cur : Date) (t : Date)
    (h : get_nth_weekday_of_month cur.year cur.month w n = some t) :
    weekPatternLoop w n fuel cur = some t := by
  cases fuel with
  | zero => exact h
  | succ f =>
    have hstep : weekPatternLoop w n (f + 1) cur =
        match get_nth_weekday_of_month cur.year cur.month w n with
        | some t2 => some t2
        | none => weekPatternLoop w n f (addMonths cur 1) := rfl
    rw [hstep, h]

/-- C10: for ordinals 1-5 and weekday codes 0-6 the nth-weekday resolver
never answers "not found", so in the week-pattern branch of
`calculate_next_anchored_monthly` the post-advance `None` check, the
12-attempt month-by-month search and the final fallback are unreachable:
the answer is the current month's occurrence when it is still ahead, and
otherwise the occurrence in the month one interval later. -/
theorem C10_week_pattern_loop_unreachable (y m w n : Nat) (hm1 : 1 ≤ m)
    (hm2 : m ≤ 12) (hw : w ≤ 6) (hn1 : 1 ≤ n) (hn5 : n ≤ 5) :
    (get_nth_weekday_of_month y m w n).isSome = true ∧
    (∀ (d : Date) (adom : Option Nat) (k : Nat),
      ∃ t0 t1, get_nth_weekday_of_month d.year d.month w n = some t0 ∧
        get_nth_weekday_of_month (addMonths d k).year (addMonths d k).month w n
          = some t1 ∧
        calculate_next_anchored_monthly d "week_pattern" adom (some n) (some w) k =
          if d.lt t0 then t0 else t1) := by
  constructor
  · obtain ⟨t, ht, _⟩ := get_nth_spec y m w n hw hn1 hn5
    rw [ht]
    rfl
  · intro d adom k
    obtain ⟨t0, ht0, _⟩ := get_nth_spec d.year d.month w n hw hn1 hn5
    obtain ⟨t1, ht1, _⟩ :=
      get_nth_spec (addMonths d k).year (addMonths d k).month w n hw hn1 hn5
    refine ⟨t0, t1, ht0, ht1, ?_⟩
    have hloop := weekPatternLoop_first w n 12 (addMonths d k) t1 ht1
    simp only [calculate_next_anchored_monthly]
    rw [if_neg (show ¬("week_pattern" : String) = "day_of_month" from by decide)]
    simp only [if_true, ht0, hloop]

theorem C10_witness :
    (get_nth_weekday_of_month 2024 6 1 4).isSome = true ∧
    (∀ (d : Date) (adom : Option Nat) (k : Nat),
      ∃ t0 t1, get_nth_weekday_of_month d.year d.month 1 4 = some t0 ∧
        get_nth_weekday_of_month (addMonths d k).year (addMonths d k).month 1 4
          = some t1 ∧
        calculate_next_anchored_monthly d "week_pattern" adom (some 4) (some 1) k =
          if d.lt t0 then t0 else t1) :=
  C10_week_pattern_loop_unreachable 2024 6 1 4 (by omega) (by omega) (by omega)
    (by omega) (by omega)

/-! ### Sorted-list facts for the anchored-weekly calculator -/

/-- `find?` on an ascending list returns the least element satisfying the
predicate. -/
theorem find_first_of_sorted {p : Nat → Bool} :
    ∀ {s : List Nat}, List.Sorted (· ≤ ·) s →
      ∀ {a : Nat}, s.find? p = some a → ∀ b ∈ s, p b = true → a ≤ b := by
  intro s
  induction s with
  | nil =>
    intro _ a h
    simp at h
  | cons x tl ih =>
    intro hs a hf b hb hpb
    rw [List.sorted_cons] at hs
    by_cases hx : p x
    · rw [List.find?_cons_of_pos tl hx] at hf
      have hax := Option.some.inj hf
      subst hax
      rcases List.mem_cons.mp hb with rfl | hbtl
      · exact le_refl b
      · exact hs.1 b hbtl
    · rw [List.find?_cons_of_neg tl hx] at hf
      rcases List.mem_cons.mp hb with rfl | hbtl
      · exact absurd hpb hx
      · exact ih hs.2 hf b hbtl hpb

theorem sorted_head_le {x : Nat} {tl : List Nat}
    (hs : List.Sorted (· ≤ ·) (x :: tl)) : ∀ b ∈ x :: tl, x ≤ b := by
  rw [List.sorted_cons] at hs
  intro b hb
  rcases List.mem_cons.mp hb with rfl | hb
  · exact le_refl b
  · exact hs.1 b hb

theorem sundayDow_addDays (d : Date) (hd : d.Valid) (k : Nat) :
    sundayDow (addDays d k) = (d.toOrdinal + k) % 7 := by
  rw [sundayDow_eq, (addDays_valid_ord d hd k).2]

/-- C3: the anchored-weekly calculator.  With the reference weekday code
`c = sundayDow d`: if some anchor lies strictly ahead in the current week
it picks the smallest such anchor `a` and returns `d + (a - c)` days;
otherwise it returns `d + (days-to-next-Sunday + least-anchor +
7*(interval-1))` days, with days-to-next-Sunday = 7 when `d` is a Sunday.
In both cases the result is strictly after `d` and its weekday is in the
anchor set.  An empty anchor list yields `d + interval` weeks. -/
theorem C3_anchored_weekly (d : Date) (hd : d.Valid) (anchor_days : List Nat)
    (hw : ∀ a ∈ anchor_days, a ≤ 6) (interval : Nat) (hi : 1 ≤ interval) :
    (anchor_days = [] →
      calculate_next_anchored_weekly d anchor_days interval =
        addDays d (7 * interval)) ∧
    ((∃ a ∈ anchor_days, sundayDow d < a) →
      ∃ a, a ∈ anchor_days ∧ sundayDow d < a ∧
        (∀ b ∈ anchor_days, sundayDow d < b → a ≤ b) ∧
        calculate_next_anchored_weekly d anchor_days interval =
          addDays d (a - sundayDow d)) ∧
    ((anchor_days ≠ [] ∧ ∀ a ∈ anchor_days, ¬sundayDow d < a) →
      ∃ a0, a0 ∈ anchor_days ∧ (∀ b ∈ anchor_days, a0 ≤ b) ∧
        calculate_next_anchored_weekly d anchor_days interval =
          addDays d ((if sundayDow d = 0 then 7 else 7 - sundayDow d) + a0 +
            (interval - 1) * 7)) ∧
    d.lt (calculate_next_anchored_weekly d anchor_days interval) ∧
    (anchor_days ≠ [] →
      sundayDow (calculate_next_anchored_weekly d anchor_days interval)
        ∈ anchor_days) := by
  have hsd : sundayDow d = (pyWeekday d + 1) % 7 := rfl
  have hpw : (pyWeekday d + 1) % 7 = d.toOrdinal % 7 := by
    unfold pyWeekday
    omega
  rw [hsd]
  by_cases hne : anchor_days = []
  · subst hne
    have hfun : calculate_next_anchored_weekly d [] interval =
        addDays d (7 * interval) := by
      simp only [calculate_next_anchored_weekly, if_true]
    refine ⟨fun _ => hfun, ?_, ?_, ?_, ?_⟩
    · rintro ⟨a, ha, _⟩
      simp at ha
    · rintro ⟨hne2, _⟩
      exact absurd rfl hne2
    · rw [hfun]
      exact lt_addDays d _ (by omega)
    · intro h
      exact absurd rfl h
  · have hsorted := List.sorted_insertionSort (· ≤ ·) anchor_days
    have hmem : ∀ x : Nat,
        x ∈ List.insertionSort (· ≤ ·) anchor_days ↔ x ∈ anchor_days :=
      fun x => (List.perm_insertionSort (· ≤ ·) anchor_days).mem_iff
    cases hfind : (List.insertionSort (· ≤ ·) anchor_days).find?
        (fun day => decide ((pyWeekday d + 1) % 7 < day)) with
    | some a =>
      have hfun : calculate_next_anchored_weekly d anchor_days interval =
          addDays d (a - (pyWeekday d + 1) % 7) := by
        simp only [calculate_next_anchored_weekly]
        rw [if_neg hne]
        simp only [hfind]
      have hamem : a ∈ anchor_days := (hmem a).mp (List.mem_of_find?_eq_some hfind)
      have hpa := List.find?_some hfind
      have hca : (pyWeekday d + 1) % 7 < a := of_decide_eq_true hpa
      have hmin : ∀ b ∈ anchor_days, (pyWeekday d + 1) % 7 < b → a ≤ b := by
        intro b hb hcb
        exact find_first_of_sorted hsorted hfind b ((hmem b).mpr hb)
          (decide_eq_true hcb)
      have ha6 : a ≤ 6 := hw a hamem
      have hdow : sundayDow (addDays d (a - (pyWeekday d + 1) % 7)) = a := by
        rw [sundayDow_addDays d hd]
        omega
      refine ⟨fun h => absurd h hne, ?_, ?_, ?_, ?_⟩
      · intro _
        exact ⟨a, hamem, hca, hmin, hfun⟩
      · rintro ⟨_, hall⟩
        exact absurd hca (hall a hamem)
      · rw [hfun]
        exact lt_addDays d _ (by omega)
      · intro _
        rw [hfun, hdow]
        exact hamem
    | none =>
      have hnone : ∀ b ∈ anchor_days, ¬(pyWeekday d + 1) % 7 < b := by
        intro b hb hcb
        exact (List.find?_eq_none.mp hfind b ((hmem b).mpr hb)) (decide_eq_true hcb)
      cases hs_eq : List.insertionSort (· ≤ ·) anchor_days with
      | nil =>
        exfalso
        apply hne
        have hp := List.perm_insertionSort (· ≤ ·) anchor_days
        rw [hs_eq] at hp
        exact (hp.symm).eq_nil
      | cons x tl =>
        have hfun : calculate_next_anchored_weekly d anchor_days interval =
            addDays d ((if (7 - (pyWeekday d + 1) % 7) % 7 = 0 then 7
              else (7 - (pyWeekday d + 1) % 7) % 7) + x + (interval - 1) * 7) := by
          simp only [calculate_next_anchored_weekly]
          rw [if_neg hne]
          simp only [hfind]
          simp only [hs_eq, List.headD_cons]
        have hx_min : ∀ b ∈ anchor_days, x ≤ b := by
          intro b hb
          have hbs := (hmem b).mpr hb
          rw [hs_eq] at hbs hsorted
          exact sorted_head_le hsorted b hbs
        have hxmem : x ∈ anchor_days := by
          apply (hmem x).mp
          rw [hs_eq]
          exact List.mem_cons_self x tl
        have hx6 : x ≤ 6 := hw x hxmem
        have hdtseq : (if (7 - (pyWeekday d + 1) % 7) % 7 = 0 then 7
            else (7 - (pyWeekday d + 1) % 7) % 7) =
            (if (pyWeekday d + 1) % 7 = 0 then 7 else 7 - (pyWeekday d + 1) % 7) := by
          split_ifs <;> omega
        have hdts1 : 1 ≤ (if (pyWeekday d + 1) % 7 = 0 then 7
              else 7 - (pyWeekday d + 1) % 7) ∧
            ((pyWeekday d + 1) % 7 + (if (pyWeekday d + 1) % 7 = 0 then 7
              else 7 - (pyWeekday d + 1) % 7)) % 7 = 0 ∧
            (if (pyWeekday d + 1) % 7 = 0 then 7
              else 7 - (pyWeekday d + 1) % 7) ≤ 7 := by
          split_ifs <;> omega
        rw [hdtseq] at hfun
        have hdow : sundayDow (addDays d ((if (pyWeekday d + 1) % 7 = 0 then 7
            else 7 - (pyWeekday d + 1) % 7) + x + (interval - 1) * 7)) = x := by
          rw [sundayDow_addDays d hd]
          omega
        refine ⟨fun h => absurd h hne, ?_, ?_, ?_, ?_⟩
        · rintro ⟨a, ha, hca⟩
          exact absurd hca (hnone a ha)
        · intro _
          exact ⟨x, hxmem, hx_min, hfun⟩
        · rw [hfun]
          exact lt_addDays d _ (by omega)
        · intro _
          rw [hfun, hdow]
          exact hxmem

theorem C3_witness :
    (([1, 4] : List Nat) = [] →
      calculate_next_anchored_weekly ⟨2024, 6, 11⟩ [1, 4] 1 =
        addDays ⟨2024, 6, 11⟩ (7 * 1)) ∧
    ((∃ a ∈ ([1, 4] : List Nat), sundayDow ⟨2024, 6, 11⟩ < a) →
      ∃ a, a ∈ ([1, 4] : List Nat) ∧ sundayDow ⟨2024, 6, 11⟩ < a ∧
        (∀ b ∈ ([1, 4] : List Nat), sundayDow ⟨2024, 6, 11⟩ < b → a ≤ b) ∧
        calculate_next_anchored_weekly ⟨2024, 6, 11⟩ [1, 4] 1 =
          addDays ⟨2024, 6, 11⟩ (a - sundayDow ⟨2024, 6, 11⟩)) ∧
    ((([1, 4] : List Nat) ≠ [] ∧
        ∀ a ∈ ([1, 4] : List Nat), ¬sundayDow ⟨2024, 6, 11⟩ < a) →
      ∃ a0, a0 ∈ ([1, 4] : List Nat) ∧ (∀ b ∈ ([1, 4] : List Nat), a0 ≤ b) ∧
        calculate_next_anchored_weekly ⟨2024, 6, 11⟩ [1, 4] 1 =
          addDays ⟨2024, 6, 11⟩
            ((if sundayDow ⟨2024, 6, 11⟩ = 0 then 7
              else 7 - sundayDow ⟨2024, 6, 11⟩) + a0 + (1 - 1) * 7)) ∧
    Date.lt ⟨2024, 6, 11⟩ (calculate_next_anchored_weekly ⟨2024, 6, 11⟩ [1, 4] 1) ∧
    (([1, 4] : List Nat) ≠ [] →
      sundayDow (calculate_next_anchored_weekly ⟨2024, 6, 11⟩ [1, 4] 1)
        ∈ ([1, 4] : List Nat)) :=
  C3_anchored_weekly ⟨2024, 6, 11⟩ (by decide) [1, 4] (by decide) 1 (by decide)
